import Mathlib

/-!
Verification of the lunartlk audio/decode core.

This file shallowly embeds the code of the repository:

* the raw WAV container codec (`wav.Encode` / `wav.Decode` / `wav.pcmToFloat32`),
* the Ogg page muxer and its table-driven CRC-32 (`audio.OggOpus`,
  `audio.writeOggPage`, `audio.crc32Ogg`),
* the incremental Opus stream encoder buffering logic (`audio.Write`,
  `audio.Flush`), with the external Opus coder abstracted as a stateful
  function parameter,
* the greedy TDT transducer decode loop (`parakeet.decodeTDT`) and
  transcript finalization (`parakeet.tokensToText`), with the backend
  (prediction network / joint network) abstracted as function parameters,
* the lazy, mutex-guarded engine slot population in the server
  (`server.lazyTranscribe`), plus an interleaving transition system for
  concurrent slot population under the per-slot mutex.

Machine floating point samples are modelled as exact rationals (the claims
involve only comparisons and clamping/quantisation arithmetic, which are
exact on the values involved); machine integers are `Nat`/`Int` with
explicit `% 2^w` where the code can wrap.  Bytes are `Nat` values, kept
below 256 by construction on the encoding side.

The file is laid out as: all definitions first, then all theorems.
-/

namespace bytes

/-- Little-endian 2-byte encoding of `n % 2^16` (Go `binary.LittleEndian` u16). -/
def u16le (n : Nat) : List Nat := [n % 256, n / 256 % 256]

/-- Little-endian 4-byte encoding of `n % 2^32`. -/
def u32le (n : Nat) : List Nat :=
  [n % 256, n / 2 ^ 8 % 256, n / 2 ^ 16 % 256, n / 2 ^ 24 % 256]

/-- Little-endian 8-byte encoding of `n % 2^64`. -/
def u64le (n : Nat) : List Nat :=
  [n % 256, n / 2 ^ 8 % 256, n / 2 ^ 16 % 256, n / 2 ^ 24 % 256,
   n / 2 ^ 32 % 256, n / 2 ^ 40 % 256, n / 2 ^ 48 % 256, n / 2 ^ 56 % 256]

/-- Read a little-endian u16 at offset `o` (out-of-range bytes read as 0;
    the Go code only reads in bounds on the inputs considered here). -/
def readU16 (d : List Nat) (o : Nat) : Nat :=
  d.getD o 0 + 2 ^ 8 * d.getD (o + 1) 0

/-- Read a little-endian u32 at offset `o`. -/
def readU32 (d : List Nat) (o : Nat) : Nat :=
  d.getD o 0 + 2 ^ 8 * d.getD (o + 1) 0 + 2 ^ 16 * d.getD (o + 2) 0 +
    2 ^ 24 * d.getD (o + 3) 0

end bytes

namespace wav

/-- Clamping of a sample to `[-1, 1]` as in `wav.Encode` / `audio.float32ToInt16`. -/
def clamp1 (s : ℚ) : ℚ := if s > 1 then 1 else if s < -1 then -1 else s

/-- Truncation toward zero, the semantics of Go's float-to-integer conversion. -/
def truncQ (q : ℚ) : ℤ := if 0 ≤ q then ⌊q⌋ else ⌈q⌉

/-- The 16-bit quantiser used by `wav.Encode` (`int16(s*32767)` after clamping). -/
def quant16 (s : ℚ) : ℤ := truncQ (clamp1 s * 32767)

/-- Byte pair written for one sample: `uint16(int16(...))` little-endian. -/
def sampleBytes (s : ℚ) : List Nat := bytes.u16le ((quant16 s % 65536).toNat)

def riffMagic : List Nat := [82, 73, 70, 70]
def waveMagic : List Nat := [87, 65, 86, 69]
def fmtMagic : List Nat := [102, 109, 116, 32]
def dataMagic : List Nat := [100, 97, 116, 97]

/-- `wav.Encode`: 16-bit mono PCM WAV container from samples. -/
def Encode (samples : List ℚ) (sampleRate : Nat) : List Nat :=
  riffMagic ++ bytes.u32le (36 + 2 * samples.length) ++ waveMagic ++
  fmtMagic ++ bytes.u32le 16 ++ bytes.u16le 1 ++ bytes.u16le 1 ++
    bytes.u32le sampleRate ++ bytes.u32le (sampleRate * 2) ++ bytes.u16le 2 ++
    bytes.u16le 16 ++
  dataMagic ++ bytes.u32le (2 * samples.length) ++ samples.flatMap sampleBytes

/-- Sign interpretation of a u16 as Go `int16`. -/
def toInt16 (u : Nat) : ℤ := if u < 2 ^ 15 then (u : ℤ) else (u : ℤ) - 2 ^ 16

/-- Sign interpretation of a u32 as Go `int32`. -/
def toInt32 (u : Nat) : ℤ := if u < 2 ^ 31 then (u : ℤ) else (u : ℤ) - 2 ^ 32

/-- `wav.pcmToFloat32`: PCM bytes to float samples (16- or 32-bit widths;
    other widths leave the zero-initialised samples, as the Go switch does). -/
def pcmToFloat32 (data : List Nat) (bitsPerSample numChannels : Nat) : List ℚ :=
  let bytesPerSample := bitsPerSample / 8
  let frameSize := numChannels * bytesPerSample
  let numFrames := data.length / frameSize
  (List.range numFrames).map fun i =>
    let off := i * frameSize
    if bitsPerSample = 16 then ((toInt16 (bytes.readU16 data off) : ℚ) / 32768)
    else if bitsPerSample = 32 then ((toInt32 (bytes.readU32 data off) : ℚ) / 2147483648)
    else 0

/-- The chunk-scan loop of `wav.Decode`.  The Go `for` loop advances
    `offset` by at least 8 per iteration; `fuel` is instantiated with
    `data.length` by `Decode`, which over-approximates the iteration count,
    so exhaustion coincides with the loop's fall-through error. -/
def decodeChunks (data : List Nat) :
    Nat → Nat → Nat → Nat → Nat → Nat → Bool → Except String (List ℚ × Nat)
  | 0, _, _, _, _, _, _ => .error "missing fmt or data chunk"
  | fuel + 1, offset, audioFormat, numChannels, sampleRate, bitsPerSample, foundFmt =>
    if offset + 8 ≤ data.length then
      let chunkID := (data.drop offset).take 4
      let chunkSize := bytes.readU32 data (offset + 4)
      if chunkID = fmtMagic then
        if chunkSize < 16 then .error "fmt chunk too small"
        else
          decodeChunks data fuel (offset + 8 + chunkSize)
            (bytes.readU16 data (offset + 8)) (bytes.readU16 data (offset + 10))
            (bytes.readU32 data (offset + 12)) (bytes.readU16 data (offset + 22)) true
      else if chunkID = dataMagic ∧ foundFmt = true then
        if audioFormat ≠ 1 then .error "only PCM WAV supported"
        else
          let endPos := min (offset + 8 + chunkSize) data.length
          let pcmData := (data.drop (offset + 8)).take (endPos - (offset + 8))
          .ok (pcmToFloat32 pcmData bitsPerSample numChannels, sampleRate)
      else
        decodeChunks data fuel (offset + 8 + chunkSize)
          audioFormat numChannels sampleRate bitsPerSample foundFmt
    else .error "missing fmt or data chunk"

/-- `wav.Decode`: header validation then generic chunk scan. -/
def Decode (data : List Nat) : Except String (List ℚ × Nat) :=
  if data.length < 44 then .error "file too small for WAV header"
  else if ¬(data.take 4 = riffMagic ∧ (data.drop 8).take 4 = waveMagic) then
    .error "not a WAV file"
  else decodeChunks data data.length 12 0 0 0 0 false

/-- The value a sample actually round-trips to through `Encode` then
    `Decode`: clamp, scale by 32767, truncate toward zero, renormalise
    by 32768. -/
def wavRound (s : ℚ) : ℚ := (quant16 s : ℚ) / 32768

/-- Spec-side definition, following the claim's words rather than the code:
    the claimed round-trip value, namely the nearest representable 16-bit
    PCM value under the decoder's renormalisation (the value set
    `{v / 32768}`), i.e. round-to-nearest instead of the code's truncation. -/
def nearest16 (s : ℚ) : ℚ := (round (clamp1 s * 32768) : ℚ) / 32768

end wav

namespace audio

/-- `audio.FrameSize`: 20 ms at 16 kHz. -/
def FrameSize : Nat := 320

/-- One step of the CRC table generation: Go `r<<1` on uint32, conditionally
    xor-ed with the polynomial, on values kept below `2^32`. -/
def crcShift (r : Nat) : Nat :=
  if 2 ^ 31 ≤ r then (r * 2) % 2 ^ 32 ^^^ 0x04C11DB7 else (r * 2) % 2 ^ 32

/-- `oggCRCTable[i]` from the package `init`: eight shift steps from `i << 24`. -/
def oggCRCTable (i : Nat) : Nat := crcShift^[8] (i % 256 * 2 ^ 24)

/-- `audio.crc32Ogg`: table-driven non-reflected CRC-32, poly 0x04C11DB7.
    `crc << 8` on uint32 is `(crc % 2^24) * 2^8` for `crc < 2^32`. -/
def crc32Ogg (data : List Nat) : Nat :=
  data.foldl (fun crc b => crc % 2 ^ 24 * 2 ^ 8 ^^^ oggCRCTable (crc / 2 ^ 24 % 256 ^^^ b % 256)) 0

/-- The Go segment-table loop `for n >= 255 { append 255; n -= 255 }` then the
    remainder byte; fuel-based (fuel `n` over-approximates the `n / 255`
    iterations). -/
def lacingAux : Nat → Nat → List Nat
  | 0, n => [n]
  | fuel + 1, n => if 255 ≤ n then 255 :: lacingAux fuel (n - 255) else [n]

def lacing (n : Nat) : List Nat := lacingAux n n

def segTableOf (segments : List (List Nat)) : List Nat :=
  segments.flatMap fun seg => lacing seg.length

/-- The page bytes built by `audio.writeOggPage` before the CRC patch:
    "OggS", version 0, flags, granule u64le, serial u32le, sequence u32le,
    zero CRC placeholder, segment count byte, segment table, payload. -/
def pageNoCRC (serial granule seqNo flags : Nat) (segments : List (List Nat)) : List Nat :=
  let segTable := segTableOf segments
  [79, 103, 103, 83] ++ [0] ++ [flags % 256] ++ bytes.u64le granule ++
    bytes.u32le serial ++ bytes.u32le seqNo ++ bytes.u32le 0 ++
    [segTable.length % 256] ++ segTable ++ segments.flatMap id

/-- The CRC patch `page[22..25] = crc little-endian` of `writeOggPage`. -/
def patch32 (page : List Nat) (v : Nat) : List Nat :=
  (((page.set 22 (v % 256)).set 23 (v / 2 ^ 8 % 256)).set 24
      (v / 2 ^ 16 % 256)).set 25 (v / 2 ^ 24 % 256)

/-- `audio.writeOggPage`: build the page with a zero CRC field, compute the
    CRC over the whole page, patch it in little-endian at offsets 22..25. -/
def writeOggPage (serial granule seqNo flags : Nat) (segments : List (List Nat)) : List Nat :=
  let page := pageNoCRC serial granule seqNo flags segments
  patch32 page (crc32Ogg page)

/-- `audio.makeOpusHead`: identification segment. -/
def makeOpusHead (sampleRate channels : Nat) : List Nat :=
  [79, 112, 117, 115, 72, 101, 97, 100] ++ [1] ++ [channels % 256] ++
    bytes.u16le 0 ++ bytes.u32le sampleRate ++ bytes.u16le 0 ++ [0]

/-- `audio.makeOpusTags`: vendor/comment segment (vendor "lunartlk"). -/
def makeOpusTags : List Nat :=
  [79, 112, 117, 115, 84, 97, 103, 115] ++ bytes.u32le 8 ++
    [108, 117, 110, 97, 114, 116, 108, 107] ++ bytes.u32le 0

/-- Logical content of one Ogg page as assembled by `OggOpus` before
    serialization by `writeOggPage`. -/
structure PageSpec where
  granule : Nat
  seqNo : Nat
  flags : Nat
  segments : List (List Nat)
deriving DecidableEq

/-- The data-page loop of `audio.OggOpus`: accumulate frames, bump the
    granule by `FrameSize` per frame, flush a page at 10 buffered frames or
    at the last frame, flag only the last page EOS (4). -/
def dataSpecs : List (List Nat) → List (List Nat) → Nat → Nat → List PageSpec
  | [], _, _, _ => []
  | frame :: rest, pageFrames, granulePos, pageSeq =>
    let pageFrames' := pageFrames ++ [frame]
    let granulePos' := granulePos + FrameSize
    if 10 ≤ pageFrames'.length ∨ rest = [] then
      ⟨granulePos', pageSeq, if rest = [] then 4 else 0, pageFrames'⟩ ::
        dataSpecs rest [] granulePos' (pageSeq + 1)
    else dataSpecs rest pageFrames' granulePos' pageSeq

/-- The stream serial number "LUNA". -/
def oggSerial : Nat := 0x4C554E41

/-- The page sequence assembled by `audio.OggOpus`: identification page
    (BOS flag 2, granule 0, sequence 0), comment page (sequence 1), then
    the data pages. -/
def oggPageSpecs (opusFrames : List (List Nat)) (sampleRate channels : Nat) : List PageSpec :=
  ⟨0, 0, 2, [makeOpusHead sampleRate channels]⟩ ::
  ⟨0, 1, 0, [makeOpusTags]⟩ ::
  dataSpecs opusFrames [] 0 2

/-- The serialized pages of the container, in order. -/
def oggPages (opusFrames : List (List Nat)) (sampleRate channels : Nat) : List (List Nat) :=
  (oggPageSpecs opusFrames sampleRate channels).map fun p =>
    writeOggPage oggSerial p.granule p.seqNo p.flags p.segments

/-- `audio.OggOpus`: the container bytes, concatenation of the pages. -/
def OggOpus (opusFrames : List (List Nat)) (sampleRate channels : Nat) : List Nat :=
  (oggPages opusFrames sampleRate channels).flatten

/-- `audio.float32ToInt16`: elementwise clamp to `[-1,1]` and `int16(s*32767)`
    (same arithmetic as `wav.quant16`). -/
def float32ToInt16 (xs : List ℚ) : List ℤ := xs.map wav.quant16

/-- `audio.StreamEncoder` state: the underlying Opus coder's internal state
    (abstract type `γ`), the partial-frame sample buffer, the wire-format
    output buffer, and the retained per-frame bytes for Ogg muxing. -/
structure StreamEncoder (γ : Type) where
  encSt : γ
  buf : List ℚ
  out : List Nat
  frames : List (List Nat)
deriving DecidableEq

/-- The abstract Opus coder: state and 320-sample int16 block in, encoded
    frame bytes and new state out (`opus.Encoder.Encode`). -/
def OpusCoder (γ : Type) : Type := γ → List ℤ → List Nat × γ

/-- The `for len(s.buf) >= FrameSize` loop body of `StreamEncoder.Write`:
    consume 320 samples, encode, append the 2-byte little-endian length and
    the frame to the wire buffer, retain the frame.  Fuel-based; `Write`
    passes the buffer length, which over-approximates the iteration count. -/
def drain {γ : Type} (enc : OpusCoder γ) :
    Nat → γ → List ℚ → List Nat → List (List Nat) → StreamEncoder γ
  | 0, g, buf, out, frames => ⟨g, buf, out, frames⟩
  | fuel + 1, g, buf, out, frames =>
    if 320 ≤ buf.length then
      let pcm16 := float32ToInt16 (buf.take 320)
      let r := enc g pcm16
      drain enc fuel r.2 (buf.drop 320)
        (out ++ bytes.u16le r.1.length ++ r.1) (frames ++ [r.1])
    else ⟨g, buf, out, frames⟩

/-- `StreamEncoder.Write`: append the samples, then encode any complete
    320-sample frames. -/
def Write {γ : Type} (enc : OpusCoder γ) (s : StreamEncoder γ) (samples : List ℚ) :
    StreamEncoder γ :=
  drain enc (s.buf ++ samples).length s.encSt (s.buf ++ samples) s.out s.frames

/-- `StreamEncoder.Flush`: no-op on an empty buffer; otherwise zero-pad the
    leftover samples to 320, encode one final frame, clear the buffer. -/
def Flush {γ : Type} (enc : OpusCoder γ) (s : StreamEncoder γ) : StreamEncoder γ :=
  if s.buf = [] then s
  else
    let pcm := s.buf.take 320 ++ List.replicate (320 - s.buf.length) 0
    let pcm16 := float32ToInt16 pcm
    let r := enc s.encSt pcm16
    ⟨r.2, [], s.out ++ bytes.u16le r.1.length ++ r.1, s.frames ++ [r.1]⟩

/-- A fresh `StreamEncoder` as built by `NewStreamEncoder`. -/
def newStreamEncoder {γ : Type} (g : γ) : StreamEncoder γ := ⟨g, [], [], []⟩

end audio

namespace parakeet

/-- The abstract inference backend of the decode loop: `dec` is the
    prediction network step (`runDecoder`: token and recurrent state to
    decoder output and new recurrent state, `α` the decoder-output type,
    `β` the recurrent-state type), `joint` is the joint network
    (`runJoiner`: frame index and decoder output to logits), and `b0` the
    zeroed initial recurrent state. -/
structure TDTBackend (α β : Type) where
  dec : Nat → β → α × β
  joint : Nat → α → List ℚ
  b0 : β

/-- The token argmax of `decodeTDT`: start at index 0 with `logits[0]`,
    strict `>` updates over `i = 1 .. vocabSize-1`. -/
def tokenArgmax (logits : List ℚ) (vocabSize : Nat) : Nat :=
  ((List.range' 1 (vocabSize - 1)).foldl
    (fun acc i => if logits.getD i 0 > acc.2 then (i, logits.getD i 0) else acc)
    (0, logits.getD 0 0)).1

/-- The duration argmax of `decodeTDT`: start at offset 0 with
    `logits[vocabSize]`, strict `>` updates over
    `i = vocabSize+1 .. len(logits)-1`, storing `i - vocabSize`. -/
def durSkip (logits : List ℚ) (vocabSize : Nat) : Nat :=
  ((List.range' (vocabSize + 1) (logits.length - (vocabSize + 1))).foldl
    (fun acc i => if logits.getD i 0 > acc.2 then (i - vocabSize, logits.getD i 0) else acc)
    (0, logits.getD vocabSize 0)).1

/-- The `for t < encodedLen` loop of `decodeTDT`, returning the token list
    and the number of iterations executed.  Per iteration: joint logits,
    token argmax, duration argmax clamped to a skip of at least 1, optional
    token emission with decoder/state update, `t += skip`.  Fuel-based and
    `none` on exhaustion; `decodeTDT` passes fuel `encodedLen`, shown
    sufficient in the theorems below. -/
def decodeLoop {α β : Type} (V blank encodedLen : Nat) (B : TDTBackend α β) :
    Nat → Nat → α → β → List Nat → Nat → Option (List Nat × Nat)
  | fuel, t, a, b, tokens, steps =>
    if encodedLen ≤ t then some (tokens, steps)
    else
      match fuel with
      | 0 => none
      | fuel + 1 =>
        let logits := B.joint t a
        let bestToken := tokenArgmax logits V
        let skip0 := durSkip logits V
        let skip := if skip0 = 0 then 1 else skip0
        if bestToken ≠ blank then
          let r := B.dec bestToken b
          decodeLoop V blank encodedLen B fuel (t + skip) r.1 r.2
            (tokens ++ [bestToken]) (steps + 1)
        else
          decodeLoop V blank encodedLen B fuel (t + skip) a b tokens (steps + 1)

/-- `parakeet.decodeTDT`: prime the prediction network once with the blank
    token and zeroed state, then run the greedy loop from `t = 0`. -/
def decodeTDT {α β : Type} (V blank encodedLen : Nat) (B : TDTBackend α β) :
    Option (List Nat × Nat) :=
  let r0 := B.dec blank B.b0
  decodeLoop V blank encodedLen B encodedLen 0 r0.1 r0.2 [] 0

/-- `parakeet.tokensToText`: keep in-range token indices, drop `<...>`
    control markers, join, replace the word-boundary marker with a space,
    trim. -/
def tokensToText (vocab : List String) (tokens : List ℤ) : String :=
  let parts := tokens.filterMap fun t =>
    if 0 ≤ t ∧ t < (vocab.length : ℤ) then
      let tok := vocab.getD t.toNat ""
      if tok.startsWith "<" ∧ tok.endsWith ">" then none else some tok
    else none
  ((String.join parts).replace "▁" " ").trim

end parakeet

namespace server

/-- One sequential call to `lazyParakeet.Transcribe` / `lazyMoonshine.Transcribe`
    (the code inside the mutex): `slot` is the `loaded` field, `provision`
    the outcome of the model download (`EnsureModel`), `load` the outcome of
    constructing the backend, `run` the inference call on the handle.
    Returns the response, the new slot contents, and whether a population
    attempt (provision + load) was performed. -/
def lazyTranscribe {H R : Type} (provision : Except String String)
    (load : String → Except String H) (run : H → Except String R)
    (slot : Option H) : Except String R × Option H × Bool :=
  match slot with
  | some h => (run h, some h, false)
  | none =>
    match provision with
    | .error e => (.error ("download: " ++ e), none, true)
    | .ok dir =>
      match load dir with
      | .error e => (.error ("load: " ++ e), none, true)
      | .ok m => (run m, some m, true)

end server

namespace conc

/-- Program counter of one request thread executing
    `lazyParakeet.Transcribe` up to the release of the slot mutex.
    `outside`: before `l.mu.Lock()`; `locked`: holding the lock, about to
    test `l.loaded`; `populating`: holding the lock, running the
    provision+load sequence (slot was nil); `haveResult`: holding the lock,
    local copy `t := l.loaded` taken; `finished`: after `l.mu.Unlock()`. -/
inductive PC
  | outside
  | locked
  | populating
  | haveResult
  | finished
deriving DecidableEq

/-- Global state of `N` request threads racing on one engine slot.
    Handles are numbered by population order, so `popCount` also tells
    which handle a population would create next. -/
structure SysState (N : Nat) where
  lock : Option (Fin N)
  slot : Option Nat
  popCount : Nat
  pc : Fin N → PC
  res : Fin N → Option Nat

/-- The initial state: lock free, slot empty, nothing populated. -/
def start0 (N : Nat) : SysState N :=
  ⟨none, none, 0, fun _ => .outside, fun _ => none⟩

/-- Interleaving semantics of the slot mutex protocol: any thread may take
    one enabled step.  `acquire` blocks until the lock is free; the
    double-check reads the slot under the lock; population (provision+load,
    assumed successful here, as in the claim's scenario) stores a fresh
    handle; the local read takes the stored handle; release frees the lock. -/
inductive Step (N : Nat) : SysState N → SysState N → Prop
  | acquire (s : SysState N) (i : Fin N) :
      s.pc i = .outside → s.lock = none →
      Step N s { s with lock := some i, pc := Function.update s.pc i .locked }
  | checkHit (s : SysState N) (i : Fin N) (h : Nat) :
      s.pc i = .locked → s.lock = some i → s.slot = some h →
      Step N s { s with pc := Function.update s.pc i .haveResult,
                        res := Function.update s.res i (some h) }
  | checkMiss (s : SysState N) (i : Fin N) :
      s.pc i = .locked → s.lock = some i → s.slot = none →
      Step N s { s with pc := Function.update s.pc i .populating }
  | populate (s : SysState N) (i : Fin N) :
      s.pc i = .populating → s.lock = some i →
      Step N s { s with slot := some s.popCount, popCount := s.popCount + 1,
                        pc := Function.update s.pc i .haveResult,
                        res := Function.update s.res i (some s.popCount) }
  | release (s : SysState N) (i : Fin N) :
      s.pc i = .haveResult → s.lock = some i →
      Step N s { s with lock := none, pc := Function.update s.pc i .finished }

/-- Reachability from the initial state. -/
def Reachable (N : Nat) (s : SysState N) : Prop :=
  Relation.ReflTransGen (Step N) (start0 N) s

end conc

/-! ## Theorems -/

namespace bytes

theorem u16le_length (n : Nat) : (u16le n).length = 2 := rfl

theorem u32le_length (n : Nat) : (u32le n).length = 4 := rfl

theorem u16le_lt (n : Nat) : ∀ b ∈ u16le n, b < 256 := by
  intro b hb
  simp only [u16le, List.mem_cons, List.not_mem_nil, or_false] at hb
  rcases hb with h | h <;> (subst h; omega)

theorem u32le_lt (n : Nat) : ∀ b ∈ u32le n, b < 256 := by
  intro b hb
  simp only [u32le, List.mem_cons, List.not_mem_nil, or_false] at hb
  rcases hb with h | h | h | h <;> (subst h; omega)

end bytes

namespace wav

theorem clamp1_mem (s : ℚ) : -1 ≤ clamp1 s ∧ clamp1 s ≤ 1 := by
  unfold clamp1
  split_ifs with h1 h2 <;> constructor <;> norm_num <;> linarith

theorem quant16_bounds (s : ℚ) : -32767 ≤ quant16 s ∧ quant16 s ≤ 32767 := by
  obtain ⟨hl, hr⟩ := clamp1_mem s
  have hql : (-32767 : ℚ) ≤ clamp1 s * 32767 := by nlinarith
  have hqr : clamp1 s * 32767 ≤ 32767 := by nlinarith
  unfold quant16 truncQ
  split_ifs with h
  · constructor
    · have := Int.le_floor.mpr
        (show ((-32767 : ℤ) : ℚ) ≤ clamp1 s * 32767 by exact_mod_cast hql)
      exact_mod_cast this
    · have := Int.floor_le_floor (α := ℚ) hqr
      simpa using this
  · constructor
    · have := Int.ceil_le_ceil (α := ℚ) hql
      simpa using this
    · have := Int.ceil_le.mpr
        (show clamp1 s * 32767 ≤ ((32767 : ℤ) : ℚ) by exact_mod_cast hqr)
      exact_mod_cast this

theorem toInt16_emod (v : ℤ) (h1 : -32768 ≤ v) (h2 : v < 32768) :
    toInt16 ((v % 65536).toNat) = v := by
  unfold toInt16
  split <;> omega

theorem pcm_cons (b0 b1 : Nat) (rest : List Nat) :
    pcmToFloat32 (b0 :: b1 :: rest) 16 1 =
      ((toInt16 (b0 + 2 ^ 8 * b1) : ℚ) / 32768) :: pcmToFloat32 rest 16 1 := by
  simp only [pcmToFloat32, List.length_cons]
  have h1 : (rest.length + 1 + 1) / (1 * (16 / 8)) = rest.length / (1 * (16 / 8)) + 1 := by
    omega
  rw [h1, List.range_succ_eq_map, List.map_cons, List.map_map]
  congr 1
  simp only [bytes.readU16]
  simp only [List.map_inj_left, Function.comp_apply]
  intro a ha
  have h2 : (a + 1) * (1 * (16 / 8)) = a * (1 * (16 / 8)) + 1 + 1 := by omega
  have h3 : (a + 1) * (1 * (16 / 8)) + 1 = a * (1 * (16 / 8)) + 1 + 1 + 1 := by omega
  simp only [h2, h3, List.getD_cons_succ, if_true]

theorem flatMap_sampleBytes_length (samples : List ℚ) :
    (samples.flatMap sampleBytes).length = 2 * samples.length := by
  induction samples with
  | nil => rfl
  | cons s ss ih =>
    simp only [List.flatMap_cons, sampleBytes, bytes.u16le, List.length_append, ih,
      List.length_cons, List.length_nil]
    omega

theorem pcm_flat (samples : List ℚ) :
    pcmToFloat32 (samples.flatMap sampleBytes) 16 1 = samples.map wavRound := by
  induction samples with
  | nil => rfl
  | cons s ss ih =>
    have hb := quant16_bounds s
    simp only [List.flatMap_cons, sampleBytes, bytes.u16le, List.cons_append,
      List.nil_append, List.map_cons]
    rw [pcm_cons]
    have hread : (quant16 s % 65536).toNat % 256 +
        2 ^ 8 * ((quant16 s % 65536).toNat / 256 % 256) = (quant16 s % 65536).toNat := by
      omega
    rw [hread, toInt16_emod _ (by omega) (by omega), ih]
    rfl

theorem encode_chain (samples : List ℚ) (r : Nat) :
    Encode samples r =
      82 :: 73 :: 70 :: 70 ::
      ((36 + 2 * samples.length) % 256) :: ((36 + 2 * samples.length) / 2 ^ 8 % 256) ::
      ((36 + 2 * samples.length) / 2 ^ 16 % 256) ::
      ((36 + 2 * samples.length) / 2 ^ 24 % 256) ::
      87 :: 65 :: 86 :: 69 ::
      102 :: 109 :: 116 :: 32 ::
      16 :: 0 :: 0 :: 0 ::
      1 :: 0 :: 1 :: 0 ::
      (r % 256) :: (r / 2 ^ 8 % 256) :: (r / 2 ^ 16 % 256) :: (r / 2 ^ 24 % 256) ::
      (r * 2 % 256) :: (r * 2 / 2 ^ 8 % 256) :: (r * 2 / 2 ^ 16 % 256) ::
      (r * 2 / 2 ^ 24 % 256) ::
      2 :: 0 :: 16 :: 0 ::
      100 :: 97 :: 116 :: 97 ::
      ((2 * samples.length) % 256) :: ((2 * samples.length) / 2 ^ 8 % 256) ::
      ((2 * samples.length) / 2 ^ 16 % 256) :: ((2 * samples.length) / 2 ^ 24 % 256) ::
      samples.flatMap sampleBytes := rfl

/-- Round-trip evaluation: decoding an encoded sample list yields the
    truncation-quantised samples.  The length bound keeps the u32 data-size
    header field from wrapping. -/
theorem decode_encode (samples : List ℚ) (hk : samples.length < 2 ^ 31) :
    Decode (Encode samples 16000) = .ok (samples.map wavRound, 16000) := by
  set k := samples.length with hkdef
  set E := Encode samples 16000 with hEdef
  have hpay : (samples.flatMap sampleBytes).length = 2 * k := flatMap_sampleBytes_length samples
  have hE := encode_chain samples 16000
  have hlen : E.length = 44 + 2 * k := by
    rw [hEdef, hE]
    simp only [List.length_cons, hpay]
    omega
  have hfuel : E.length = (43 + 2 * k) + 1 := by omega
  have hA : E.take 4 = riffMagic := by rw [hEdef, hE]; rfl
  have hB : (E.drop 8).take 4 = waveMagic := by rw [hEdef, hE]; rfl
  rw [Decode, if_neg (by omega), if_neg (not_not_intro ⟨hA, hB⟩)]
  rw [hfuel]
  have hid1 : (E.drop 12).take 4 = fmtMagic := by rw [hEdef, hE]; rfl
  have hsz1 : bytes.readU32 E (12 + 4) = 16 := by rw [hEdef, hE]; rfl
  have hfmt : bytes.readU16 E (12 + 8) = 1 := by rw [hEdef, hE]; rfl
  have hch : bytes.readU16 E (12 + 10) = 1 := by rw [hEdef, hE]; rfl
  have hsr : bytes.readU32 E (12 + 12) = 16000 := by rw [hEdef, hE]; rfl
  have hbits : bytes.readU16 E (12 + 22) = 16 := by rw [hEdef, hE]; rfl
  rw [decodeChunks, if_pos (by omega : 12 + 8 ≤ E.length)]
  simp only [hid1, hsz1, hfmt, hch, hsr, hbits, if_pos rfl,
    if_neg (by norm_num : ¬(16 < 16))]
  have h36 : 12 + 8 + 16 = 36 := rfl
  rw [h36]
  have hfuel2 : 43 + 2 * k = (42 + 2 * k) + 1 := by omega
  rw [hfuel2]
  have hid2 : (E.drop 36).take 4 = dataMagic := by rw [hEdef, hE]; rfl
  have hid2' : ¬((E.drop 36).take 4 = fmtMagic) := by rw [hid2]; decide
  have hsz2 : bytes.readU32 E (36 + 4) = 2 * k := by
    rw [hEdef, hE]
    simp only [bytes.readU32, List.getD_cons_succ, List.getD_cons_zero]
    omega
  have hdrop : E.drop (36 + 8) = samples.flatMap sampleBytes := by rw [hEdef, hE]; rfl
  rw [decodeChunks, if_pos (by omega : 36 + 8 ≤ E.length)]
  simp only [hid2, hid2', hsz2]
  rw [if_pos trivial, if_neg (show ¬(dataMagic = fmtMagic) by decide),
    if_pos (show True ∧ True from ⟨trivial, trivial⟩)]
  have hmin : min (36 + 8 + 2 * k) E.length = 44 + 2 * k := by omega
  rw [hmin]
  have htake : (samples.flatMap sampleBytes).take (44 + 2 * k - (36 + 8)) =
      samples.flatMap sampleBytes := by
    apply List.take_of_length_le
    omega
  rw [hdrop, htake, pcm_flat]
  rw [if_neg (show ¬(1 ≠ 1) by decide)]

theorem clamp1_small : clamp1 (1/16384) = 1/16384 := by
  unfold clamp1
  rw [if_neg (by norm_num), if_neg (by norm_num)]

theorem quant16_val : quant16 (1/16384) = 1 := by
  unfold quant16
  rw [clamp1_small]
  unfold truncQ
  rw [if_pos (by norm_num)]
  rw [show ((1 : ℚ)/16384 * 32767) = 32767/16384 by norm_num]
  rw [Int.floor_eq_iff]
  norm_num

theorem nearest16_val : nearest16 (1/16384) = 1/16384 := by
  unfold nearest16
  rw [clamp1_small]
  rw [show ((1 : ℚ)/16384 * 32768) = 2 by norm_num]
  rw [show ((2 : ℚ)) = ((2 : ℤ) : ℚ) by norm_num, round_intCast]
  norm_num

/-- Claim C2, counterexample: the raw round-trip is NOT
    nearest-value quantisation.  The input sample `1/16384` is itself a
    representable 16-bit PCM value under the decoder's renormalisation
    (`nearest16` fixes it), yet `DecodeRaw(EncodeRaw([1/16384], 16000))`
    returns `1/32768`: the code truncates `s * 32767` toward zero and
    renormalises by `32768`, landing one quantisation step low. -/
theorem c2_claim_counterexample :
    Decode (Encode [1/16384] 16000) = .ok ([1/32768], 16000) ∧
    nearest16 (1/16384) = 1/16384 ∧ ((1 : ℚ)/32768) ≠ (1 : ℚ)/16384 := by
  refine ⟨?_, nearest16_val, by norm_num⟩
  have h := decode_encode [1/16384] (by norm_num)
  have hw : wavRound (1/16384) = 1/32768 := by
    unfold wavRound
    rw [quant16_val]
    norm_num
  rw [h, List.map_cons, List.map_nil, hw]

/-- Claim C2, amended: for every sample list (shorter than `2^31` samples,
    so the u32 data-size header does not wrap), `DecodeRaw(EncodeRaw(samples,
    16000))` returns a list of the same length whose i-th element is the
    i-th input sample clamped to `[-1,1]`, scaled by 32767, truncated toward
    zero, and renormalised by 32768 (`wavRound`) — truncation quantisation,
    not rounding to the nearest representable value. -/
theorem c2_roundtrip_truncation (samples : List ℚ) (hk : samples.length < 2 ^ 31) :
    Decode (Encode samples 16000) = .ok (samples.map wavRound, 16000) ∧
    (samples.map wavRound).length = samples.length :=
  ⟨decode_encode samples hk, samples.length_map wavRound⟩

/-- Witness for `c2_roundtrip_truncation` at the concrete input `[1/2]`. -/
theorem c2_roundtrip_truncation_witness :
    ([(1 : ℚ)/2].length < 2 ^ 31) ∧
    (Decode (Encode [(1 : ℚ)/2] 16000) = .ok ([(1 : ℚ)/2].map wavRound, 16000) ∧
      ([(1 : ℚ)/2].map wavRound).length = [(1 : ℚ)/2].length) :=
  ⟨by norm_num, c2_roundtrip_truncation [(1 : ℚ)/2] (by norm_num)⟩

end wav

namespace audio

theorem crcShift_lt (r : Nat) : crcShift r < 2 ^ 32 := by
  unfold crcShift
  split
  · exact Nat.xor_lt_two_pow (Nat.mod_lt _ (by norm_num)) (by norm_num)
  · exact Nat.mod_lt _ (by norm_num)

theorem crcShift_iter_lt (n : Nat) (x : Nat) (hx : x < 2 ^ 32) :
    crcShift^[n] x < 2 ^ 32 := by
  induction n generalizing x with
  | zero => simpa using hx
  | succ n ih =>
    rw [Function.iterate_succ_apply]
    exact ih _ (crcShift_lt x)

theorem oggCRCTable_lt (i : Nat) : oggCRCTable i < 2 ^ 32 := by
  unfold oggCRCTable
  exact crcShift_iter_lt 8 _
    (by have := Nat.mod_lt i (show 0 < 256 by norm_num); nlinarith)

theorem crc32Ogg_lt (data : List Nat) : crc32Ogg data < 2 ^ 32 := by
  unfold crc32Ogg
  generalize h0 : (0 : Nat) = c0
  have hc0 : c0 < 2 ^ 32 := by omega
  clear h0
  induction data generalizing c0 with
  | nil => simpa using hc0
  | cons b bs ih =>
    rw [List.foldl_cons]
    apply ih
    exact Nat.xor_lt_two_pow
      (by have := Nat.mod_lt c0 (show 0 < 2 ^ 24 by norm_num); omega)
      (oggCRCTable_lt _)

theorem set_append_right2 {α : Type} (l1 l2 : List α) (n : Nat) (x : α)
    (h : l1.length ≤ n) : (l1 ++ l2).set n x = l1 ++ l2.set (n - l1.length) x := by
  rw [List.set_append, if_neg (by omega)]

theorem patch32_mid (A B : List Nat) (hA : A.length = 22) (a b c d v : Nat) :
    patch32 (A ++ ([a, b, c, d] ++ B)) v = A ++ (bytes.u32le v ++ B) := by
  unfold patch32 bytes.u32le
  simp only [List.cons_append, List.nil_append]
  rw [set_append_right2 _ _ 22 _ (by omega), hA,
    show (22 - 22 : Nat) = 0 from rfl, List.set_cons_zero]
  rw [set_append_right2 _ _ 23 _ (by omega), hA,
    show (23 - 22 : Nat) = 1 from rfl, List.set_cons_succ, List.set_cons_zero]
  rw [set_append_right2 _ _ 24 _ (by omega), hA,
    show (24 - 22 : Nat) = 2 from rfl, List.set_cons_succ, List.set_cons_succ,
    List.set_cons_zero]
  rw [set_append_right2 _ _ 25 _ (by omega), hA,
    show (25 - 22 : Nat) = 3 from rfl, List.set_cons_succ, List.set_cons_succ,
    List.set_cons_succ, List.set_cons_zero]

theorem pageNoCRC_shape (serial granule seqNo flags : Nat) (segments : List (List Nat)) :
    pageNoCRC serial granule seqNo flags segments =
      (79 :: 103 :: 103 :: 83 :: 0 :: flags % 256 ::
        (bytes.u64le granule ++ (bytes.u32le serial ++ bytes.u32le seqNo))) ++
      ([0, 0, 0, 0] ++
        ((segTableOf segments).length % 256 ::
          (segTableOf segments ++ segments.flatMap id))) := by
  unfold pageNoCRC
  simp [bytes.u32le, List.append_assoc]

theorem head22_length (serial granule seqNo flags : Nat) :
    (79 :: 103 :: 103 :: 83 :: 0 :: flags % 256 ::
      (bytes.u64le granule ++ (bytes.u32le serial ++ bytes.u32le seqNo))).length = 22 := by
  simp [bytes.u64le, bytes.u32le]

theorem readU32_after22 (A l : List Nat) (hA : A.length = 22) :
    bytes.readU32 (A ++ l) 22 = bytes.readU32 l 0 := by
  unfold bytes.readU32
  rw [show (22 : Nat) = A.length + 0 by omega]
  rw [List.getD_append_right _ _ _ _ (by omega), List.getD_append_right _ _ _ _ (by omega),
    List.getD_append_right _ _ _ _ (by omega), List.getD_append_right _ _ _ _ (by omega)]
  simp only [show A.length + 0 - A.length = 0 from by omega,
    show A.length + 0 + 1 - A.length = 1 from by omega,
    show A.length + 0 + 2 - A.length = 2 from by omega,
    show A.length + 0 + 3 - A.length = 3 from by omega]

theorem readU32_u32le_append (n : Nat) (rest : List Nat) (h : n < 2 ^ 32) :
    bytes.readU32 (bytes.u32le n ++ rest) 0 = n := by
  simp only [bytes.readU32, bytes.u32le, List.cons_append, List.getD_cons_zero,
    List.getD_cons_succ]
  omega

theorem writeOggPage_shape (serial granule seqNo flags : Nat) (segments : List (List Nat)) :
    writeOggPage serial granule seqNo flags segments =
      (79 :: 103 :: 103 :: 83 :: 0 :: flags % 256 ::
        (bytes.u64le granule ++ (bytes.u32le serial ++ bytes.u32le seqNo))) ++
      (bytes.u32le (crc32Ogg (pageNoCRC serial granule seqNo flags segments)) ++
        ((segTableOf segments).length % 256 ::
          (segTableOf segments ++ segments.flatMap id))) := by
  unfold writeOggPage
  conv_lhs => rw [pageNoCRC_shape]
  rw [patch32_mid _ _ (head22_length serial granule seqNo flags), ← pageNoCRC_shape]

theorem writeOggPage_crc (serial granule seqNo flags : Nat) (segments : List (List Nat)) :
    bytes.readU32 (writeOggPage serial granule seqNo flags segments) 22 =
      crc32Ogg (patch32 (writeOggPage serial granule seqNo flags segments) 0) := by
  rw [writeOggPage_shape]
  rw [readU32_after22 _ _ (head22_length serial granule seqNo flags)]
  rw [readU32_u32le_append _ _ (crc32Ogg_lt _)]
  rw [show bytes.u32le (crc32Ogg (pageNoCRC serial granule seqNo flags segments)) =
      [crc32Ogg (pageNoCRC serial granule seqNo flags segments) % 256,
       crc32Ogg (pageNoCRC serial granule seqNo flags segments) / 2 ^ 8 % 256,
       crc32Ogg (pageNoCRC serial granule seqNo flags segments) / 2 ^ 16 % 256,
       crc32Ogg (pageNoCRC serial granule seqNo flags segments) / 2 ^ 24 % 256] from rfl]
  rw [patch32_mid _ _ (head22_length serial granule seqNo flags)]
  rw [show bytes.u32le 0 = [0, 0, 0, 0] from rfl]
  rw [← pageNoCRC_shape]

/-- Claim C3: for every container produced by the Ogg muxer and every page
    in it, the table-driven non-reflected CRC-32 (poly 0x04C11DB7) over the
    complete page with the 4-byte checksum field zeroed equals the
    little-endian checksum stored at byte offsets 22..25 of the page. -/
theorem c3_page_checksum (opusFrames : List (List Nat)) (sampleRate channels : Nat)
    (page : List Nat) (hmem : page ∈ oggPages opusFrames sampleRate channels) :
    bytes.readU32 page 22 = crc32Ogg (patch32 page 0) := by
  unfold oggPages at hmem
  obtain ⟨spec, _, rfl⟩ := List.mem_map.mp hmem
  exact writeOggPage_crc oggSerial spec.granule spec.seqNo spec.flags spec.segments

/-- Witness for `c3_page_checksum`: the single data page of the container
    holding one frame `[5]`. -/
theorem c3_page_checksum_witness :
    (writeOggPage oggSerial 320 2 4 [[5]] ∈ oggPages [[5]] 16000 1) ∧
    bytes.readU32 (writeOggPage oggSerial 320 2 4 [[5]]) 22 =
      crc32Ogg (patch32 (writeOggPage oggSerial 320 2 4 [[5]]) 0) := by
  have hm : writeOggPage oggSerial 320 2 4 [[5]] ∈ oggPages [[5]] 16000 1 := by
    unfold oggPages
    rw [show oggPageSpecs [[5]] 16000 1 =
      [⟨0, 0, 2, [makeOpusHead 16000 1]⟩, ⟨0, 1, 0, [makeOpusTags]⟩,
       ⟨320, 2, 4, [[5]]⟩] from rfl]
    simp only [List.map_cons, List.map_nil, List.mem_cons]
    tauto
  exact ⟨hm, c3_page_checksum [[5]] 16000 1 _ hm⟩

end audio

namespace audio

theorem dataSpecs_props (frames : List (List Nat)) :
    ∀ (pending : List (List Nat)) (g s : Nat), pending.length < 10 → frames ≠ [] →
    dataSpecs frames pending g s ≠ [] ∧
    (dataSpecs frames pending g s).flatMap PageSpec.segments = pending ++ frames ∧
    (∀ k < (dataSpecs frames pending g s).length,
      ((dataSpecs frames pending g s).getD k ⟨0, 0, 0, []⟩).seqNo = s + k ∧
      ((dataSpecs frames pending g s).getD k ⟨0, 0, 0, []⟩).segments.length ≤ 10 ∧
      ((dataSpecs frames pending g s).getD k ⟨0, 0, 0, []⟩).segments ≠ [] ∧
      ((dataSpecs frames pending g s).getD k ⟨0, 0, 0, []⟩).flags =
        (if k = (dataSpecs frames pending g s).length - 1 then 4 else 0) ∧
      ((dataSpecs frames pending g s).getD k ⟨0, 0, 0, []⟩).granule + 320 * pending.length =
        g + 320 * (((dataSpecs frames pending g s).take (k + 1)).flatMap PageSpec.segments).length) := by
  induction frames with
  | nil => intro pending g s hp hne; exact absurd rfl hne
  | cons frame rest ih =>
    intro pending g s hp _
    by_cases hfl : 10 ≤ (pending ++ [frame]).length ∨ rest = []
    · -- flush branch
      rw [show dataSpecs (frame :: rest) pending g s =
          ⟨g + FrameSize, s, if rest = [] then 4 else 0, pending ++ [frame]⟩ ::
            dataSpecs rest [] (g + FrameSize) (s + 1) from by
        rw [dataSpecs, if_pos hfl]]
      by_cases hrest : rest = []
      · subst hrest
        rw [show dataSpecs ([] : List (List Nat)) [] (g + FrameSize) (s + 1) = [] from rfl]
        refine ⟨by simp, by simp, ?_⟩
        intro k hk
        simp only [List.length_cons, List.length_nil] at hk
        have hk0 : k = 0 := by omega
        subst hk0
        refine ⟨by simp, ?_, ?_, ?_, ?_⟩
        · simp only [List.getD_cons_zero]
          simp only [List.length_append, List.length_cons, List.length_nil]
          omega
        · simp only [List.getD_cons_zero]
          simp
        · simp
        · simp only [List.getD_cons_zero, List.take_succ_cons, List.take_zero,
            List.flatMap_cons, List.flatMap_nil, List.append_nil, List.length_append,
            List.length_cons, List.length_nil, FrameSize]
          omega
      · obtain ⟨hne', hflat', hprops'⟩ := ih [] (g + FrameSize) (s + 1) (by simp) hrest
        refine ⟨by simp, ?_, ?_⟩
        · simp only [List.flatMap_cons, hflat', List.nil_append, List.append_assoc,
            List.cons_append, List.nil_append]
        · intro k hk
          cases k with
          | zero =>
            have hlen' : 0 < (dataSpecs rest [] (g + FrameSize) (s + 1)).length :=
              List.length_pos.mpr hne'
            refine ⟨by simp, ?_, ?_, ?_, ?_⟩
            · simp only [List.getD_cons_zero]
              simp only [List.length_append, List.length_cons, List.length_nil]
              omega
            · simp only [List.getD_cons_zero]
              simp
            · simp only [List.getD_cons_zero, List.length_cons]
              rw [if_neg hrest, if_neg (by omega)]
            · simp only [List.getD_cons_zero, List.take_succ_cons, List.take_zero,
                List.flatMap_cons, List.flatMap_nil, List.append_nil, List.length_append,
                List.length_cons, List.length_nil, FrameSize]
              omega
          | succ k =>
            simp only [List.length_cons] at hk
            have hk' : k < (dataSpecs rest [] (g + FrameSize) (s + 1)).length := by omega
            obtain ⟨hseq, hle, hne2, hflg, hgran⟩ := hprops' k hk'
            refine ⟨?_, ?_, ?_, ?_, ?_⟩
            · simp only [List.getD_cons_succ, hseq]; omega
            · simp only [List.getD_cons_succ]; exact hle
            · simp only [List.getD_cons_succ]; exact hne2
            · simp only [List.getD_cons_succ, List.length_cons, hflg]
              have hlen' : 0 < (dataSpecs rest [] (g + FrameSize) (s + 1)).length :=
                List.length_pos.mpr hne'
              by_cases hkl : k = (dataSpecs rest [] (g + FrameSize) (s + 1)).length - 1
              · rw [if_pos hkl, if_pos (by omega)]
              · rw [if_neg hkl, if_neg (by omega)]
            · simp only [List.getD_cons_succ, List.take_succ_cons, List.flatMap_cons,
                List.length_append]
              simp only [List.length_nil, Nat.mul_zero, Nat.add_zero] at hgran
              simp only [List.length_append, List.length_cons, List.length_nil, FrameSize] at *
              omega
    · -- accumulate branch
      push_neg at hfl
      obtain ⟨hlen10, hrest⟩ := hfl
      rw [show dataSpecs (frame :: rest) pending g s =
          dataSpecs rest (pending ++ [frame]) (g + FrameSize) s from by
        rw [dataSpecs, if_neg (by push_neg; exact ⟨hlen10, hrest⟩)]]
      obtain ⟨hne', hflat', hprops'⟩ := ih (pending ++ [frame]) (g + FrameSize) s
        (by simp only [List.length_append, List.length_cons, List.length_nil] at *; omega) hrest
      refine ⟨hne', ?_, ?_⟩
      · rw [hflat']
        simp
      · intro k hk
        obtain ⟨hseq, hle, hne2, hflg, hgran⟩ := hprops' k hk
        refine ⟨hseq, hle, hne2, hflg, ?_⟩
        simp only [List.length_append, List.length_cons, List.length_nil, FrameSize] at *
        omega


/-- Claim C6: for every non-empty frame sequence the muxer emits a first
    page flagged BOS (2) with sequence 0, granule 0, carrying the
    identification segment; a second page with sequence 1 carrying the
    vendor/comment segment; then data pages of at most 10 frames each with
    consecutive sequence numbers from 2, each data page's granule equal to
    320 times the frames emitted up to and including it, and only the final
    data page flagged EOS (4). -/
theorem c6_container_layout (opusFrames : List (List Nat)) (sampleRate channels : Nat)
    (hne : opusFrames ≠ []) :
    oggPageSpecs opusFrames sampleRate channels =
      ⟨0, 0, 2, [makeOpusHead sampleRate channels]⟩ :: ⟨0, 1, 0, [makeOpusTags]⟩ ::
        dataSpecs opusFrames [] 0 2 ∧
    dataSpecs opusFrames [] 0 2 ≠ [] ∧
    (dataSpecs opusFrames [] 0 2).flatMap PageSpec.segments = opusFrames ∧
    (∀ k < (dataSpecs opusFrames [] 0 2).length,
      ((dataSpecs opusFrames [] 0 2).getD k ⟨0, 0, 0, []⟩).seqNo = 2 + k ∧
      ((dataSpecs opusFrames [] 0 2).getD k ⟨0, 0, 0, []⟩).segments.length ≤ 10 ∧
      ((dataSpecs opusFrames [] 0 2).getD k ⟨0, 0, 0, []⟩).segments ≠ [] ∧
      ((dataSpecs opusFrames [] 0 2).getD k ⟨0, 0, 0, []⟩).flags =
        (if k = (dataSpecs opusFrames [] 0 2).length - 1 then 4 else 0) ∧
      ((dataSpecs opusFrames [] 0 2).getD k ⟨0, 0, 0, []⟩).granule =
        320 * (((dataSpecs opusFrames [] 0 2).take (k + 1)).flatMap
          PageSpec.segments).length) := by
  obtain ⟨hne', hflat, hprops⟩ := dataSpecs_props opusFrames [] 0 2 (by simp) hne
  refine ⟨rfl, hne', by simpa using hflat, ?_⟩
  intro k hk
  obtain ⟨hseq, hle, hne2, hflg, hgran⟩ := hprops k hk
  refine ⟨by omega, hle, hne2, hflg, ?_⟩
  simp only [List.length_nil, Nat.mul_zero, Nat.add_zero, Nat.zero_add] at hgran
  omega

/-- Witness for `c6_container_layout` at one frame `[7]`. -/
theorem c6_container_layout_witness :
    (([[7]] : List (List Nat)) ≠ []) ∧
    (oggPageSpecs [[7]] 16000 1 =
      ⟨0, 0, 2, [makeOpusHead 16000 1]⟩ :: ⟨0, 1, 0, [makeOpusTags]⟩ ::
        dataSpecs [[7]] [] 0 2 ∧
    dataSpecs [[7]] [] 0 2 ≠ [] ∧
    (dataSpecs [[7]] [] 0 2).flatMap PageSpec.segments = [[7]] ∧
    (∀ k < (dataSpecs [[7]] [] 0 2).length,
      ((dataSpecs [[7]] [] 0 2).getD k ⟨0, 0, 0, []⟩).seqNo = 2 + k ∧
      ((dataSpecs [[7]] [] 0 2).getD k ⟨0, 0, 0, []⟩).segments.length ≤ 10 ∧
      ((dataSpecs [[7]] [] 0 2).getD k ⟨0, 0, 0, []⟩).segments ≠ [] ∧
      ((dataSpecs [[7]] [] 0 2).getD k ⟨0, 0, 0, []⟩).flags =
        (if k = (dataSpecs [[7]] [] 0 2).length - 1 then 4 else 0) ∧
      ((dataSpecs [[7]] [] 0 2).getD k ⟨0, 0, 0, []⟩).granule =
        320 * (((dataSpecs [[7]] [] 0 2).take (k + 1)).flatMap
          PageSpec.segments).length)) :=
  ⟨by simp, c6_container_layout [[7]] 16000 1 (by simp)⟩

end audio

namespace audio

theorem drain_done {γ : Type} (enc : OpusCoder γ) (fuel : Nat) (g : γ) (buf : List ℚ)
    (out : List Nat) (frames : List (List Nat)) (h : buf.length < 320) :
    drain enc fuel g buf out frames = ⟨g, buf, out, frames⟩ := by
  cases fuel with
  | zero => rfl
  | succ fuel => rw [drain, if_neg (by omega)]

theorem drain_step {γ : Type} (enc : OpusCoder γ) (fuel : Nat) (g : γ) (buf : List ℚ)
    (out : List Nat) (frames : List (List Nat)) (h : 320 ≤ buf.length) :
    drain enc (fuel + 1) g buf out frames =
      drain enc fuel (enc g (float32ToInt16 (buf.take 320))).2 (buf.drop 320)
        (out ++ bytes.u16le (enc g (float32ToInt16 (buf.take 320))).1.length ++
          (enc g (float32ToInt16 (buf.take 320))).1)
        (frames ++ [(enc g (float32ToInt16 (buf.take 320))).1]) := by
  rw [drain, if_pos h]

theorem write_block {γ : Type} (enc : OpusCoder γ) (g0 : γ) (block : List ℚ)
    (hlen : block.length = 320) :
    Write enc (newStreamEncoder g0) block =
      ⟨(enc g0 (float32ToInt16 block)).2, [],
        bytes.u16le (enc g0 (float32ToInt16 block)).1.length ++
          (enc g0 (float32ToInt16 block)).1,
        [(enc g0 (float32ToInt16 block)).1]⟩ := by
  unfold Write newStreamEncoder
  simp only [List.nil_append, hlen]
  rw [show (320 : Nat) = 319 + 1 from rfl,
    drain_step enc _ _ _ _ _ (by omega),
    List.take_of_length_le (by omega), List.drop_of_length_le (by omega),
    drain_done enc _ _ _ _ _ (by simp)]
  simp only [List.nil_append]


theorem drain_spec {γ : Type} (enc : OpusCoder γ) (fuel : Nat) :
    ∀ (g : γ) (buf : List ℚ) (out : List Nat) (frames : List (List Nat)),
      buf.length ≤ fuel →
      (drain enc fuel g buf out frames).buf = buf.drop (320 * (buf.length / 320)) ∧
      (drain enc fuel g buf out frames).frames.length =
        frames.length + buf.length / 320 := by
  induction fuel with
  | zero =>
    intro g buf out frames h
    have hb : buf = [] := List.length_eq_zero.mp (by omega)
    subst hb
    simp [drain]
  | succ fuel ih =>
    intro g buf out frames h
    by_cases hge : 320 ≤ buf.length
    · rw [drain_step enc fuel g buf out frames hge]
      obtain ⟨h1, h2⟩ := ih _ (buf.drop 320) _ _ (by simp; omega)
      have hlen : (buf.drop 320).length = buf.length - 320 := by simp
      constructor
      · rw [h1, List.drop_drop, hlen]
        congr 1
        omega
      · rw [h2, hlen, List.length_append, List.length_cons, List.length_nil]
        omega
    · rw [drain_done enc _ g buf out frames (by omega)]
      have : buf.length / 320 = 0 := by omega
      simp [this]

/-- Claim C4: each `Write` emits one frame per complete 320-sample block
    buffered (consuming 320 samples per frame) and keeps the 0..319-sample
    remainder buffered; `Flush` is a no-op on an empty buffer and otherwise
    zero-pads the leftover samples to 320 and emits exactly one final frame;
    writing exactly 320 samples to a fresh encoder yields exactly one frame
    from `Write`, none from `Flush`, and a wire output of one 2-byte
    little-endian length followed by the frame bytes. -/
theorem c4_stream_write_flush {γ : Type} (enc : OpusCoder γ) (s : StreamEncoder γ)
    (samples : List ℚ) (g0 : γ) :
    (Write enc s samples).frames.length =
      s.frames.length + (s.buf.length + samples.length) / 320 ∧
    (Write enc s samples).buf =
      (s.buf ++ samples).drop (320 * ((s.buf.length + samples.length) / 320)) ∧
    (Write enc s samples).buf.length = (s.buf.length + samples.length) % 320 ∧
    (Flush enc s =
      if s.buf = [] then s
      else
        ⟨(enc s.encSt (float32ToInt16 (s.buf.take 320 ++
            List.replicate (320 - s.buf.length) 0))).2, [],
          s.out ++ bytes.u16le (enc s.encSt (float32ToInt16 (s.buf.take 320 ++
            List.replicate (320 - s.buf.length) 0))).1.length ++
            (enc s.encSt (float32ToInt16 (s.buf.take 320 ++
              List.replicate (320 - s.buf.length) 0))).1,
          s.frames ++ [(enc s.encSt (float32ToInt16 (s.buf.take 320 ++
            List.replicate (320 - s.buf.length) 0))).1]⟩) ∧
    (Write enc (newStreamEncoder g0) (List.replicate 320 0) =
      ⟨(enc g0 (float32ToInt16 (List.replicate 320 0))).2, [],
        bytes.u16le (enc g0 (float32ToInt16 (List.replicate 320 0))).1.length ++
          (enc g0 (float32ToInt16 (List.replicate 320 0))).1,
        [(enc g0 (float32ToInt16 (List.replicate 320 0))).1]⟩) ∧
    Flush enc (Write enc (newStreamEncoder g0) (List.replicate 320 0)) =
      Write enc (newStreamEncoder g0) (List.replicate 320 0) := by
  have htot : (s.buf ++ samples).length = s.buf.length + samples.length := by simp
  obtain ⟨hbuf, hfr⟩ := drain_spec enc (s.buf ++ samples).length s.encSt (s.buf ++ samples)
    s.out s.frames (le_refl _)
  have hscen := write_block enc g0 (List.replicate 320 0) (List.length_replicate 320 0)
  refine ⟨?_, ?_, ?_, ?_, hscen, ?_⟩
  · rw [Write, hfr, htot]
  · rw [Write, hbuf, htot]
  · rw [Write, hbuf]
    simp only [List.length_drop, htot]
    omega
  · rw [Flush]
  · rw [hscen, Flush]
    rw [if_pos rfl]

end audio

namespace parakeet

theorem argmax_fold_spec (f : Nat → ℚ) (start : Nat) (i0 : Nat) (h0 : i0 < start) :
    ∀ n : Nat,
      ((List.range' start n).foldl
        (fun acc i => if f i > acc.2 then (i, f i) else acc) (i0, f i0)).2 =
        f ((List.range' start n).foldl
          (fun acc i => if f i > acc.2 then (i, f i) else acc) (i0, f i0)).1 ∧
      (((List.range' start n).foldl
          (fun acc i => if f i > acc.2 then (i, f i) else acc) (i0, f i0)).1 = i0 ∨
        (start ≤ ((List.range' start n).foldl
          (fun acc i => if f i > acc.2 then (i, f i) else acc) (i0, f i0)).1 ∧
         ((List.range' start n).foldl
          (fun acc i => if f i > acc.2 then (i, f i) else acc) (i0, f i0)).1 < start + n)) ∧
      (∀ j, (j = i0 ∨ (start ≤ j ∧ j < start + n)) →
        f j ≤ f (((List.range' start n).foldl
          (fun acc i => if f i > acc.2 then (i, f i) else acc) (i0, f i0)).1)) ∧
      (∀ j, (j = i0 ∨ (start ≤ j ∧ j < start + n)) →
        j < ((List.range' start n).foldl
          (fun acc i => if f i > acc.2 then (i, f i) else acc) (i0, f i0)).1 →
        f j < f (((List.range' start n).foldl
          (fun acc i => if f i > acc.2 then (i, f i) else acc) (i0, f i0)).1)) := by
  intro n
  induction n with
  | zero =>
    refine ⟨rfl, Or.inl rfl, ?_, ?_⟩
    · rintro j (rfl | ⟨h1, h2⟩)
      · exact le_refl _
      · omega
    · rintro j (rfl | ⟨h1, h2⟩) hj
      · simp only [List.range', List.foldl_nil] at hj
        omega
      · omega
  | succ n ih =>
    rw [List.range'_concat, List.foldl_append, List.foldl_cons, List.foldl_nil]
    obtain ⟨ihv, ihrange, ihmax, ihfirst⟩ := ih
    set r := (List.range' start n).foldl
      (fun acc i => if f i > acc.2 then (i, f i) else acc) (i0, f i0) with hr
    by_cases hgt : f (start + 1 * n) > r.2
    · rw [if_pos hgt]
      refine ⟨rfl, Or.inr ⟨by omega, by omega⟩, ?_, ?_⟩
      · rintro j (rfl | ⟨h1, h2⟩)
        · calc f j ≤ f r.1 := ihmax j (Or.inl rfl)
            _ = r.2 := ihv.symm
            _ ≤ f (start + 1 * n) := le_of_lt hgt
        · by_cases hj : j = start + n
          · subst hj
            simp only [Nat.one_mul]
            exact le_refl _
          · calc f j ≤ f r.1 := ihmax j (Or.inr ⟨h1, by omega⟩)
              _ = r.2 := ihv.symm
              _ ≤ f (start + 1 * n) := le_of_lt hgt
      · rintro j (rfl | ⟨h1, h2⟩) hj
        · calc f j ≤ f r.1 := ihmax j (Or.inl rfl)
            _ = r.2 := ihv.symm
            _ < f (start + 1 * n) := hgt
        · have hj' : j < start + n := by omega
          calc f j ≤ f r.1 := ihmax j (Or.inr ⟨h1, hj'⟩)
            _ = r.2 := ihv.symm
            _ < f (start + 1 * n) := hgt
    · rw [if_neg hgt]
      push_neg at hgt
      have hr1 : r.1 < start + n := by
        rcases ihrange with h | ⟨h1, h2⟩
        · omega
        · omega
      refine ⟨ihv, ?_, ?_, ?_⟩
      · rcases ihrange with h | ⟨h1, h2⟩
        · exact Or.inl h
        · exact Or.inr ⟨h1, by omega⟩
      · rintro j (rfl | ⟨h1, h2⟩)
        · exact ihmax j (Or.inl rfl)
        · by_cases hj : j = start + n
          · subst hj
            rw [← ihv]
            simpa using hgt
          · exact ihmax j (Or.inr ⟨h1, by omega⟩)
      · rintro j (rfl | ⟨h1, h2⟩) hj
        · exact ihfirst j (Or.inl rfl) hj
        · have hj' : j < start + n := by omega
          exact ihfirst j (Or.inr ⟨h1, hj'⟩) hj


theorem tokenArgmax_spec (logits : List ℚ) (V : Nat) (hV : 1 ≤ V) :
    tokenArgmax logits V < V ∧
    (∀ j < V, logits.getD j 0 ≤ logits.getD (tokenArgmax logits V) 0) ∧
    (∀ j < tokenArgmax logits V, logits.getD j 0 < logits.getD (tokenArgmax logits V) 0) := by
  obtain ⟨hv, hrange, hmax, hfirst⟩ :=
    argmax_fold_spec (fun i => logits.getD i 0) 1 0 (by omega) (V - 1)
  unfold tokenArgmax
  have hJ : ∀ j : Nat, j < V ↔ (j = 0 ∨ (1 ≤ j ∧ j < 1 + (V - 1))) := by
    intro j
    omega
  refine ⟨?_, ?_, ?_⟩
  · rcases hrange with h | ⟨h1, h2⟩
    · omega
    · omega
  · intro j hj
    exact hmax j ((hJ j).mp hj)
  · intro j hj
    have hjV : j < V := by
      rcases hrange with h | ⟨h1, h2⟩ <;> omega
    exact hfirst j ((hJ j).mp hjV) hj

theorem durSkip_abs (logits : List ℚ) (V : Nat) :
    ∀ (l : List Nat), (∀ i ∈ l, V ≤ i) → ∀ (dA : Nat), V ≤ dA → ∀ q : ℚ,
      (l.foldl (fun acc i =>
          if logits.getD i 0 > acc.2 then (i - V, logits.getD i 0) else acc) (dA - V, q)) =
        ((l.foldl (fun acc i =>
          if logits.getD i 0 > acc.2 then (i, logits.getD i 0) else acc) (dA, q)).1 - V,
         (l.foldl (fun acc i =>
          if logits.getD i 0 > acc.2 then (i, logits.getD i 0) else acc) (dA, q)).2) ∧
      V ≤ (l.foldl (fun acc i =>
          if logits.getD i 0 > acc.2 then (i, logits.getD i 0) else acc) (dA, q)).1 := by
  intro l
  induction l with
  | nil =>
    intro _ dA hdA q
    exact ⟨rfl, hdA⟩
  | cons i rest ih =>
    intro hmem dA hdA q
    have hiV : V ≤ i := hmem i (List.mem_cons_self i rest)
    simp only [List.foldl_cons]
    by_cases hgt : logits.getD i 0 > q
    · rw [if_pos hgt, if_pos hgt]
      exact ih (fun j hj => hmem j (List.mem_cons_of_mem i hj)) i hiV _
    · rw [if_neg hgt, if_neg hgt]
      exact ih (fun j hj => hmem j (List.mem_cons_of_mem i hj)) dA hdA q

theorem durSkip_spec (logits : List ℚ) (V : Nat) (hlen : V < logits.length) :
    V + durSkip logits V < logits.length ∧
    (∀ j, V ≤ j → j < logits.length →
      logits.getD j 0 ≤ logits.getD (V + durSkip logits V) 0) ∧
    (∀ j, V ≤ j → j < V + durSkip logits V →
      logits.getD j 0 < logits.getD (V + durSkip logits V) 0) := by
  have hmem : ∀ i ∈ List.range' (V + 1) (logits.length - (V + 1)), V ≤ i := by
    intro i hi
    have := List.mem_range'.mp hi
    omega
  obtain ⟨habs, hge⟩ := durSkip_abs logits V
    (List.range' (V + 1) (logits.length - (V + 1))) hmem V (le_refl V) (logits.getD V 0)
  obtain ⟨hv, hrange, hmax, hfirst⟩ :=
    argmax_fold_spec (fun i => logits.getD i 0) (V + 1) V (by omega)
      (logits.length - (V + 1))
  have hd : durSkip logits V =
      ((List.range' (V + 1) (logits.length - (V + 1))).foldl
        (fun acc i => if logits.getD i 0 > acc.2 then (i, logits.getD i 0) else acc)
        (V, logits.getD V 0)).1 - V := by
    unfold durSkip
    rw [show (V - V : Nat) = 0 from by omega] at habs
    rw [habs]
  set rA := ((List.range' (V + 1) (logits.length - (V + 1))).foldl
    (fun acc i => if logits.getD i 0 > acc.2 then (i, logits.getD i 0) else acc)
    (V, logits.getD V 0)).1 with hrA
  have hVd : V + durSkip logits V = rA := by
    rw [hd]
    omega
  have hJ : ∀ j : Nat, (V ≤ j ∧ j < logits.length) ↔
      (j = V ∨ (V + 1 ≤ j ∧ j < V + 1 + (logits.length - (V + 1)))) := by
    intro j
    omega
  have hrAlt : rA < logits.length := by
    rcases hrange with h | ⟨h1, h2⟩ <;> omega
  refine ⟨by omega, ?_, ?_⟩
  · intro j hj1 hj2
    rw [hVd]
    exact hmax j ((hJ j).mp ⟨hj1, hj2⟩)
  · intro j hj1 hj2
    rw [hVd]
    rw [hVd] at hj2
    have hjlen : j < logits.length := by omega
    exact hfirst j ((hJ j).mp ⟨hj1, hjlen⟩) hj2


theorem skip_ge_one (logits : List ℚ) (V : Nat) :
    1 ≤ (if durSkip logits V = 0 then 1 else durSkip logits V) := by
  split <;> omega

theorem decodeLoop_terminates {α β : Type} (V blank L : Nat) (B : TDTBackend α β) :
    ∀ (fuel : Nat) (t : Nat) (a : α) (b : β) (tokens : List Nat) (steps : Nat),
      L - t ≤ fuel →
      ∃ r : List Nat × Nat, decodeLoop V blank L B fuel t a b tokens steps = some r ∧
        r.2 ≤ steps + (L - t) := by
  intro fuel
  induction fuel with
  | zero =>
    intro t a b tokens steps h
    have ht : L ≤ t := by omega
    rw [decodeLoop, if_pos ht]
    exact ⟨(tokens, steps), rfl, by omega⟩
  | succ fuel ih =>
    intro t a b tokens steps h
    by_cases ht : L ≤ t
    · rw [decodeLoop, if_pos ht]
      exact ⟨(tokens, steps), rfl, by omega⟩
    · rw [decodeLoop, if_neg ht]
      have hskip := skip_ge_one (B.joint t a) V
      set skip := if durSkip (B.joint t a) V = 0 then 1 else durSkip (B.joint t a) V
        with hskipdef
      by_cases htok : tokenArgmax (B.joint t a) V ≠ blank
      · rw [if_pos htok]
        obtain ⟨r, hr, hb⟩ := ih (t + skip) (B.dec (tokenArgmax (B.joint t a) V) b).1
          (B.dec (tokenArgmax (B.joint t a) V) b).2 (tokens ++ [tokenArgmax (B.joint t a) V])
          (steps + 1) (by omega)
        exact ⟨r, hr, by omega⟩
      · rw [if_neg htok]
        obtain ⟨r, hr, hb⟩ := ih (t + skip) a b tokens (steps + 1) (by omega)
        exact ⟨r, hr, by omega⟩

/-- Claim C1: for every encoder-output length `L ≥ 1` and every backend whose
    joint logits are longer than the vocabulary, the greedy TDT loop of
    `decodeTDT` terminates (the fuel `L` is never exhausted) after at most
    `L` iterations: the duration skip is clamped to at least 1, and the loop
    exits as soon as `t ≥ L`. -/
theorem c1_decode_terminates {α β : Type} (V blank L : Nat) (B : TDTBackend α β)
    (hL : 1 ≤ L) (hlen : ∀ (t : Nat) (a : α), V < (B.joint t a).length) :
    ∃ tokens : List Nat, ∃ steps : Nat,
      decodeTDT V blank L B = some (tokens, steps) ∧ steps ≤ L := by
  obtain ⟨r, hr, hb⟩ := decodeLoop_terminates V blank L B L 0 (B.dec blank B.b0).1
    (B.dec blank B.b0).2 [] 0 (by omega)
  exact ⟨r.1, r.2, hr, by omega⟩

/-- Witness for `c1_decode_terminates`: vocabulary size 2, blank 0, length 3,
    constant logits `[1, 0, 0, 0]`. -/
theorem c1_decode_terminates_witness :
    (1 ≤ 3 ∧ ∀ (t : Nat) (a : Unit),
      (2 : Nat) < ((⟨fun _ _ => ((), ()), fun _ _ => [1, 0, 0, 0], ()⟩ :
        TDTBackend Unit Unit).joint t a).length) ∧
    ∃ tokens : List Nat, ∃ steps : Nat,
      decodeTDT 2 0 3 (⟨fun _ _ => ((), ()), fun _ _ => [1, 0, 0, 0], ()⟩ :
        TDTBackend Unit Unit) = some (tokens, steps) ∧ steps ≤ 3 :=
  ⟨⟨by omega, fun t a => by
      show (2 : Nat) < ([1, 0, 0, 0] : List ℚ).length
      decide⟩,
   c1_decode_terminates 2 0 3 _ (by omega) (fun t a => by
      show (2 : Nat) < ([1, 0, 0, 0] : List ℚ).length
      decide)⟩


theorem decodeLoop_blank_all {α β : Type} (V blank L : Nat) (B : TDTBackend α β)
    (hblank : ∀ (t : Nat) (a : α), tokenArgmax (B.joint t a) V = blank ∧
      durSkip (B.joint t a) V = 0) :
    ∀ (fuel : Nat) (t : Nat) (a : α) (b : β) (tokens : List Nat) (steps : Nat),
      L - t ≤ fuel →
      decodeLoop V blank L B fuel t a b tokens steps = some (tokens, steps + (L - t)) := by
  intro fuel
  induction fuel with
  | zero =>
    intro t a b tokens steps h
    have ht : L ≤ t := by omega
    rw [decodeLoop, if_pos ht, show steps + (L - t) = steps from by omega]
  | succ fuel ih =>
    intro t a b tokens steps h
    by_cases ht : L ≤ t
    · rw [decodeLoop, if_pos ht, show steps + (L - t) = steps from by omega]
    · obtain ⟨htok, hdur⟩ := hblank t a
      rw [decodeLoop, if_neg ht, if_neg (by rw [htok]; exact not_not_intro rfl), hdur,
        if_pos rfl]
      rw [ih (t + 1) a b tokens (steps + 1) (by omega)]
      rw [show steps + 1 + (L - (t + 1)) = steps + (L - t) from by omega]

/-- Claim C7: in a decode step whose token argmax is the blank index, no
    token is appended and neither the decoder output nor the recurrent
    state is updated; consequently, when the token argmax is blank and the
    duration argmax index is 0 at every step, `t` advances by exactly 1 per
    iteration and `decodeTDT` returns the empty token sequence after `L`
    steps. -/
theorem c7_blank_decode {α β : Type} (V blank L : Nat) (B : TDTBackend α β)
    (hblank : ∀ (t : Nat) (a : α), tokenArgmax (B.joint t a) V = blank ∧
      durSkip (B.joint t a) V = 0) :
    decodeTDT V blank L B = some ([], L) ∧
    (∀ (fuel : Nat) (t : Nat) (a : α) (b : β) (tokens : List Nat) (steps : Nat),
      t < L →
      decodeLoop V blank L B (fuel + 1) t a b tokens steps =
        decodeLoop V blank L B fuel (t + 1) a b tokens (steps + 1)) := by
  constructor
  · unfold decodeTDT
    rw [decodeLoop_blank_all V blank L B hblank L 0 _ _ [] 0 (by omega)]
    rw [show (0 + (L - 0) : Nat) = L from by omega]
  · intro fuel t a b tokens steps ht
    obtain ⟨htok, hdur⟩ := hblank t a
    rw [decodeLoop, if_neg (by omega), if_neg (by rw [htok]; exact not_not_intro rfl), hdur,
      if_pos rfl]

/-- Witness for `c7_blank_decode`: vocabulary size 2, blank index 0,
    length 3, constant logits `[1, 0, 0, 0]` whose token argmax is 0 and
    duration argmax offset is 0. -/
theorem c7_blank_decode_witness :
    (∀ (t : Nat) (a : Unit),
      tokenArgmax ((⟨fun _ _ => ((), ()), fun _ _ => [1, 0, 0, 0], ()⟩ :
        TDTBackend Unit Unit).joint t a) 2 = 0 ∧
      durSkip ((⟨fun _ _ => ((), ()), fun _ _ => [1, 0, 0, 0], ()⟩ :
        TDTBackend Unit Unit).joint t a) 2 = 0) ∧
    (decodeTDT 2 0 3 (⟨fun _ _ => ((), ()), fun _ _ => [1, 0, 0, 0], ()⟩ :
        TDTBackend Unit Unit) = some ([], 3) ∧
    (∀ (fuel : Nat) (t : Nat) (a : Unit) (b : Unit) (tokens : List Nat) (steps : Nat),
      t < 3 →
      decodeLoop 2 0 3 (⟨fun _ _ => ((), ()), fun _ _ => [1, 0, 0, 0], ()⟩ :
          TDTBackend Unit Unit) (fuel + 1) t a b tokens steps =
        decodeLoop 2 0 3 (⟨fun _ _ => ((), ()), fun _ _ => [1, 0, 0, 0], ()⟩ :
          TDTBackend Unit Unit) fuel (t + 1) a b tokens (steps + 1))) :=
  ⟨fun t a => by
      constructor
      · show tokenArgmax [1, 0, 0, 0] 2 = 0
        decide
      · show durSkip [1, 0, 0, 0] 2 = 0
        decide,
   c7_blank_decode 2 0 3 _ (fun t a => by
      constructor
      · show tokenArgmax [1, 0, 0, 0] 2 = 0
        decide
      · show durSkip [1, 0, 0, 0] 2 = 0
        decide)⟩

/-- Claim C5: the greedy decode is deterministic — identical backends give
    identical results — and both argmaxes break ties by keeping the
    first-seen (lowest) index under strict `>`: the chosen index attains
    the maximum and every smaller candidate index scores strictly below
    it. -/
theorem c5_decode_deterministic {α β : Type} (V blank L : Nat)
    (B B' : TDTBackend α β) (hBB : B = B') (logits : List ℚ)
    (hV : 1 ≤ V) (hlen : V < logits.length) :
    decodeTDT V blank L B = decodeTDT V blank L B' ∧
    (tokenArgmax logits V < V ∧
      (∀ j < V, logits.getD j 0 ≤ logits.getD (tokenArgmax logits V) 0) ∧
      (∀ j < tokenArgmax logits V,
        logits.getD j 0 < logits.getD (tokenArgmax logits V) 0)) ∧
    (V + durSkip logits V < logits.length ∧
      (∀ j, V ≤ j → j < logits.length →
        logits.getD j 0 ≤ logits.getD (V + durSkip logits V) 0) ∧
      (∀ j, V ≤ j → j < V + durSkip logits V →
        logits.getD j 0 < logits.getD (V + durSkip logits V) 0)) :=
  ⟨by rw [hBB], tokenArgmax_spec logits V hV, durSkip_spec logits V hlen⟩

/-- Witness for `c5_decode_deterministic`: equal backends and the logits
    `[3, 3, 1, 2, 2]` with vocabulary size 2 (token tie broken to index 0,
    duration tie broken to the first-seen offset 1). -/
theorem c5_decode_deterministic_witness :
    ((⟨fun _ _ => ((), ()), fun _ _ => [1, 0, 0, 0], ()⟩ : TDTBackend Unit Unit) =
      (⟨fun _ _ => ((), ()), fun _ _ => [1, 0, 0, 0], ()⟩ : TDTBackend Unit Unit) ∧
     (1 : Nat) ≤ 2 ∧ (2 : Nat) < ([3, 3, 1, 2, 2] : List ℚ).length) ∧
    (decodeTDT 2 0 3 (⟨fun _ _ => ((), ()), fun _ _ => [1, 0, 0, 0], ()⟩ :
        TDTBackend Unit Unit) =
      decodeTDT 2 0 3 (⟨fun _ _ => ((), ()), fun _ _ => [1, 0, 0, 0], ()⟩ :
        TDTBackend Unit Unit) ∧
    (tokenArgmax [3, 3, 1, 2, 2] 2 < 2 ∧
      (∀ j < 2, ([3, 3, 1, 2, 2] : List ℚ).getD j 0 ≤
        ([3, 3, 1, 2, 2] : List ℚ).getD (tokenArgmax [3, 3, 1, 2, 2] 2) 0) ∧
      (∀ j < tokenArgmax [3, 3, 1, 2, 2] 2,
        ([3, 3, 1, 2, 2] : List ℚ).getD j 0 <
          ([3, 3, 1, 2, 2] : List ℚ).getD (tokenArgmax [3, 3, 1, 2, 2] 2) 0)) ∧
    (2 + durSkip [3, 3, 1, 2, 2] 2 < ([3, 3, 1, 2, 2] : List ℚ).length ∧
      (∀ j, 2 ≤ j → j < ([3, 3, 1, 2, 2] : List ℚ).length →
        ([3, 3, 1, 2, 2] : List ℚ).getD j 0 ≤
          ([3, 3, 1, 2, 2] : List ℚ).getD (2 + durSkip [3, 3, 1, 2, 2] 2) 0) ∧
      (∀ j, 2 ≤ j → j < 2 + durSkip [3, 3, 1, 2, 2] 2 →
        ([3, 3, 1, 2, 2] : List ℚ).getD j 0 <
          ([3, 3, 1, 2, 2] : List ℚ).getD (2 + durSkip [3, 3, 1, 2, 2] 2) 0))) :=
  ⟨⟨rfl, by omega, by decide⟩,
   c5_decode_deterministic 2 0 3 _ _ rfl [3, 3, 1, 2, 2] (by omega) (by decide)⟩

end parakeet

namespace parakeet

theorem filterMap_filter_eq {α β : Type} (f : α → Option β) (p : α → Bool)
    (hfp : ∀ x, p x = false → f x = none) :
    ∀ l : List α, l.filterMap f = (l.filter p).filterMap f := by
  intro l
  induction l with
  | nil => rfl
  | cons x xs ih =>
    by_cases hp : p x = true
    · rw [List.filter_cons_of_pos hp, List.filterMap_cons, List.filterMap_cons, ih]
    · rw [List.filter_cons_of_neg (by simpa using hp), List.filterMap_cons,
        hfp x (by simpa using hp), ih]

/-- Claim C10: transcript finalization is total over arbitrary token
    indices — `tokensToText` silently skips every index outside
    `[0, len(vocab))`, so its result only depends on the in-range tokens
    and the conversion never fails. -/
theorem c10_tokens_total (vocab : List String) (tokens : List ℤ) :
    tokensToText vocab tokens =
      tokensToText vocab
        (tokens.filter fun t => decide (0 ≤ t ∧ t < (vocab.length : ℤ))) := by
  unfold tokensToText
  rw [filterMap_filter_eq _ (fun t => decide (0 ≤ t ∧ t < (vocab.length : ℤ)))
    (fun t ht => by
      rw [if_neg (by simpa using ht)])]

end parakeet

namespace server

/-- Claim C8: a failed lazy engine-slot population is not cached.  A call on
    an empty slot with a failed provisioning returns the error and leaves
    the slot empty with a population attempt recorded; a retry on the
    resulting slot behaves exactly like a fresh attempt; a call on an empty
    slot with successful provisioning returns the load outcome, caching the
    handle only on success; and a call on a populated slot reuses the handle
    with no population attempt. -/
theorem c8_lazy_slot_retry {H R : Type} (p : Except String String)
    (load : String → Except String H) (run : H → Except String R)
    (e dir : String) (h : H) :
    (lazyTranscribe (.error e) load run none =
      (.error ("download: " ++ e), none, true)) ∧
    (lazyTranscribe (.ok dir) load run none =
      match load dir with
      | .error e2 => (.error ("load: " ++ e2), none, true)
      | .ok m => (run m, some m, true)) ∧
    (lazyTranscribe (.ok dir) load run
        (lazyTranscribe (.error e) load run none).2.1 =
      match load dir with
      | .error e2 => (.error ("load: " ++ e2), none, true)
      | .ok m => (run m, some m, true)) ∧
    (lazyTranscribe p load run (some h) = (run h, some h, false)) :=
  ⟨rfl, rfl, rfl, rfl⟩

end server

namespace conc

theorem reachable_invariant (N : Nat) (s : SysState N) (hr : Reachable N s) :
    (∀ i, (s.pc i = .locked ∨ s.pc i = .populating ∨ s.pc i = .haveResult) →
      s.lock = some i) ∧
    (s.slot = none → s.popCount = 0) ∧
    (∀ h, s.slot = some h → h = 0 ∧ s.popCount = 1) ∧
    (∀ i h, s.res i = some h → h = 0 ∧ s.slot = some 0) ∧
    (∀ i, (s.pc i = .haveResult ∨ s.pc i = .finished) → s.res i = some 0) ∧
    (∀ i, s.pc i = .populating → s.slot = none) := by
  induction hr with
  | refl =>
    refine ⟨?_, ?_, ?_, ?_, ?_, ?_⟩
    · rintro i (h | h | h) <;> exact absurd h (by simp [start0])
    · intro _; rfl
    · intro h hh; exact Option.noConfusion hh
    · intro i h hh; exact Option.noConfusion hh
    · rintro i (h | h) <;> exact absurd h (by simp [start0])
    · intro i h; rfl
  | @tail b c hsteps hstep ih =>
    obtain ⟨ih1, ih2, ih3, ih4, ih5, ih6⟩ := ih
    cases hstep with
    | acquire i hpc hlock =>
      refine ⟨?_, ih2, ih3, ih4, ?_, ?_⟩
      · intro j hj
        simp only [Function.update_apply] at hj
        by_cases hji : j = i
        · subst hji; rfl
        · rw [if_neg hji] at hj
          exact absurd (ih1 j hj) (by rw [hlock]; exact Option.noConfusion)
      · intro j hj
        simp only [Function.update_apply] at hj
        by_cases hji : j = i
        · subst hji
          rw [if_pos rfl] at hj
          rcases hj with h | h <;> exact absurd h (by decide)
        · rw [if_neg hji] at hj
          exact ih5 j hj
      · intro j hj
        simp only [Function.update_apply] at hj
        by_cases hji : j = i
        · subst hji
          rw [if_pos rfl] at hj
          exact absurd hj (by decide)
        · rw [if_neg hji] at hj
          exact ih6 j hj
    | checkHit i h hpc hlock hslot =>
      obtain ⟨hh0, hpop⟩ := ih3 h hslot
      subst hh0
      refine ⟨?_, ih2, ih3, ?_, ?_, ?_⟩
      · intro j hj
        simp only [Function.update_apply] at hj
        by_cases hji : j = i
        · subst hji; exact hlock
        · rw [if_neg hji] at hj
          exact ih1 j hj
      · intro j hv hj
        simp only [Function.update_apply] at hj
        by_cases hji : j = i
        · subst hji
          rw [if_pos rfl] at hj
          cases hj
          exact ⟨rfl, hslot⟩
        · rw [if_neg hji] at hj
          exact ih4 j hv hj
      · intro j hj
        simp only [Function.update_apply] at hj ⊢
        by_cases hji : j = i
        · subst hji; rw [if_pos rfl]
        · rw [if_neg hji] at hj ⊢
          exact ih5 j hj
      · intro j hj
        simp only [Function.update_apply] at hj
        by_cases hji : j = i
        · subst hji
          rw [if_pos rfl] at hj
          exact absurd hj (by decide)
        · rw [if_neg hji] at hj
          exact absurd hslot (by rw [ih6 j hj]; exact Option.noConfusion)
    | checkMiss i hpc hlock hslot =>
      refine ⟨?_, ih2, ih3, ih4, ?_, ?_⟩
      · intro j hj
        simp only [Function.update_apply] at hj
        by_cases hji : j = i
        · subst hji; exact hlock
        · rw [if_neg hji] at hj
          exact ih1 j hj
      · intro j hj
        simp only [Function.update_apply] at hj
        by_cases hji : j = i
        · subst hji
          rw [if_pos rfl] at hj
          rcases hj with h | h <;> exact absurd h (by decide)
        · rw [if_neg hji] at hj
          exact ih5 j hj
      · intro j hj
        exact hslot
    | populate i hpc hlock =>
      have hslot : b.slot = none := ih6 i hpc
      have hpop : b.popCount = 0 := ih2 hslot
      refine ⟨?_, ?_, ?_, ?_, ?_, ?_⟩
      · intro j hj
        simp only [Function.update_apply] at hj
        by_cases hji : j = i
        · subst hji; exact hlock
        · rw [if_neg hji] at hj
          exact ih1 j hj
      · intro hcontr
        exact Option.noConfusion hcontr
      · intro v hv
        cases hv
        exact ⟨by omega, by rw [hpop]⟩
      · intro j v hj
        simp only [Function.update_apply] at hj
        by_cases hji : j = i
        · subst hji
          rw [if_pos rfl] at hj
          cases hj
          exact ⟨by omega, by rw [hpop]⟩
        · rw [if_neg hji] at hj
          obtain ⟨hv0, hsl⟩ := ih4 j v hj
          exact absurd hsl (by rw [hslot]; exact Option.noConfusion)
      · intro j hj
        simp only [Function.update_apply] at hj ⊢
        by_cases hji : j = i
        · subst hji
          rw [if_pos rfl]
          rw [hpop]
        · rw [if_neg hji] at hj ⊢
          exact ih5 j hj
      · intro j hj
        simp only [Function.update_apply] at hj
        by_cases hji : j = i
        · subst hji
          rw [if_pos rfl] at hj
          exact absurd hj (by decide)
        · rw [if_neg hji] at hj
          have hlj := ih1 j (Or.inr (Or.inl hj))
          rw [hlock] at hlj
          exact absurd (Option.some.inj hlj).symm hji
    | release i hpc hlock =>
      refine ⟨?_, ih2, ih3, ih4, ?_, ?_⟩
      · intro j hj
        simp only [Function.update_apply] at hj
        by_cases hji : j = i
        · subst hji
          rw [if_pos rfl] at hj
          rcases hj with h | h | h <;> exact absurd h (by decide)
        · rw [if_neg hji] at hj
          have := ih1 j hj
          rw [hlock] at this
          exact absurd (Option.some.inj this).symm hji
      · intro j hj
        simp only [Function.update_apply] at hj
        by_cases hji : j = i
        · subst hji
          exact ih5 j (Or.inl hpc)
        · rw [if_neg hji] at hj
          exact ih5 j hj
      · intro j hj
        simp only [Function.update_apply] at hj
        by_cases hji : j = i
        · subst hji
          rw [if_pos rfl] at hj
          exact absurd hj (by decide)
        · rw [if_neg hji] at hj
          exact ih6 j hj


/-- Claim C9: exactly-once concurrent slot population.  In every reachable
    state of `N` threads racing on one engine slot under the per-slot mutex
    in which all threads have finished, exactly one provisioning-plus-load
    sequence ran (`popCount = 1`) and every thread received the same handle
    (the one stored by the single population). -/
theorem c9_exactly_once (N : Nat) (hN : 0 < N) (s : SysState N)
    (hr : Reachable N s) (hdone : ∀ i, s.pc i = .finished) :
    s.popCount = 1 ∧ (∀ i, s.res i = some 0) ∧ (∀ i j, s.res i = s.res j) := by
  obtain ⟨_, _, ih3, ih4, ih5, _⟩ := reachable_invariant N s hr
  have hres : ∀ i, s.res i = some 0 := fun i => ih5 i (Or.inr (hdone i))
  obtain ⟨_, hslot⟩ := ih4 ⟨0, hN⟩ 0 (hres ⟨0, hN⟩)
  obtain ⟨_, hpop⟩ := ih3 0 hslot
  exact ⟨hpop, hres, fun i j => by rw [hres i, hres j]⟩

/-- Witness for `c9_exactly_once`: one thread acquiring, double-checking,
    populating and releasing, ending in the all-finished state. -/
theorem c9_exactly_once_witness :
    (0 < 1 ∧ Reachable 1 ⟨none, some 0, 1, fun _ => .finished, fun _ => some 0⟩ ∧
      (∀ i, (⟨none, some 0, 1, fun _ => .finished, fun _ => some 0⟩ :
        SysState 1).pc i = .finished)) ∧
    ((⟨none, some 0, 1, fun _ => .finished, fun _ => some 0⟩ :
        SysState 1).popCount = 1 ∧
     (∀ i, (⟨none, some 0, 1, fun _ => .finished, fun _ => some 0⟩ :
        SysState 1).res i = some 0) ∧
     (∀ i j, (⟨none, some 0, 1, fun _ => .finished, fun _ => some 0⟩ :
        SysState 1).res i =
       (⟨none, some 0, 1, fun _ => .finished, fun _ => some 0⟩ :
        SysState 1).res j)) := by
  set s1 : SysState 1 := { start0 1 with lock := some (0 : Fin 1), pc := Function.update (start0 1).pc (0 : Fin 1) PC.locked } with hs1
  have h1 : Step 1 (start0 1) s1 := Step.acquire (start0 1) (0 : Fin 1) rfl rfl
  set s2 : SysState 1 := { s1 with pc := Function.update s1.pc (0 : Fin 1) PC.populating } with hs2
  have h2 : Step 1 s1 s2 := Step.checkMiss s1 (0 : Fin 1) (by rw [hs1]; exact rfl) rfl rfl
  set s3 : SysState 1 := { s2 with slot := some s2.popCount, popCount := s2.popCount + 1, pc := Function.update s2.pc (0 : Fin 1) PC.haveResult, res := Function.update s2.res (0 : Fin 1) (some s2.popCount) } with hs3
  have h3 : Step 1 s2 s3 := Step.populate s2 (0 : Fin 1) (by rw [hs2]; exact rfl) rfl
  set s4 : SysState 1 := { s3 with lock := none, pc := Function.update s3.pc (0 : Fin 1) PC.finished } with hs4
  have h4 : Step 1 s3 s4 := Step.release s3 (0 : Fin 1) (by rw [hs3]; exact rfl) rfl
  have hr4 : Reachable 1 s4 :=
    Relation.ReflTransGen.tail (Relation.ReflTransGen.tail
      (Relation.ReflTransGen.tail (Relation.ReflTransGen.tail
        Relation.ReflTransGen.refl h1) h2) h3) h4
  have hpc4 : s4.pc = fun _ : Fin 1 => PC.finished := by
    funext j
    fin_cases j
    rfl
  have hres4 : s4.res = fun _ : Fin 1 => some 0 := by
    funext j
    fin_cases j
    rfl
  have hEq : s4 = (⟨none, some 0, 1, fun _ => .finished, fun _ => some 0⟩ : SysState 1) := by
    rw [show s4 = (⟨none, some 0, 1, s4.pc, s4.res⟩ : SysState 1) from rfl, hpc4, hres4]
  rw [hEq] at hr4
  have hdone : ∀ i : Fin 1, (⟨none, some 0, 1, fun _ => .finished, fun _ => some 0⟩ :
      SysState 1).pc i = .finished := fun _ => rfl
  exact ⟨⟨by omega, hr4, hdone⟩,
    c9_exactly_once 1 (by omega) _ hr4 hdone⟩

end conc
